import Mathlib

/-!
Shallow embedding of the `roll` dice-notation interpreter (Rust) used to
check the natural-language specification against the code.

Sources embedded here:
  * `src/dice/bound.rs`   — `Bounded` ranges and their comparison order
  * `src/dice/mod.rs`     — `Dice`, `Die`, parsing, rolling
  * `src/roll/value.rs`   — `Value`, `Action`, `ExType`
  * `src/roll/behaviour.rs` — `Behaviour` and the evaluation engine

Machine integers `i8`/`u8`/`usize` are embedded as `Int`/`Nat` (the claims
under study never reach the overflow boundary; parsing enforces the source
ranges).  The random source (`rand::RngCore` plus `gen_range`/`Uniform`) is
embedded as an explicit stream of naturals together with the documented
contract of `gen_range(lo..=hi)` / `Uniform::new_inclusive(lo, hi)`: one
stream element is consumed per sample, the sample lies in `lo..=hi`, and an
empty range (`lo > hi`) panics.  Panics are modelled as `none`; unbounded
`while` loops carry explicit fuel, and exhausting the fuel also yields
`none`.
-/

namespace Roll

/-- Rust `std::ops::Bound<i8>` restricted to the three constructors used by
`Bounded` in `src/dice/bound.rs`. -/
inductive Bnd where
  | unbounded : Bnd
  | included : Int → Bnd
  | excluded : Int → Bnd
deriving DecidableEq, Repr

/-- The `Bounded { start: Bound<i8>, end: Bound<i8> }` from `src/dice/bound.rs`.
The Rust field `end` is a Lean keyword, so it is named `stop` here. -/
structure Bounded where
  start : Bnd
  stop : Bnd
deriving DecidableEq, Repr

/-- Comparison of two `Int`s, as Rust `i8::cmp`. -/
def cmpInt (a b : Int) : Ordering :=
  if a < b then .lt else if a = b then .eq else .gt

/-- Comparison of two `Nat`s, as Rust `u8::cmp` / `usize::cmp`. -/
def cmpNat (a b : Nat) : Ordering :=
  if a < b then .lt else if a = b then .eq else .gt

/-- The `Bounded::cmp_bound` (src/dice/bound.rs lines 38–48): inner values are
compared when both bounds are finite, ignoring inclusive/exclusive, and a
finite bound sorts below `Unbounded`. -/
def Bounded.cmpBound (this that : Bnd) : Ordering :=
  match this, that with
  | .unbounded, .unbounded => .eq
  | .included v1, .included v2 => cmpInt v1 v2
  | .included v1, .excluded v2 => cmpInt v1 v2
  | .excluded v1, .included v2 => cmpInt v1 v2
  | .excluded v1, .excluded v2 => cmpInt v1 v2
  | .included _, .unbounded => .lt
  | .excluded _, .unbounded => .lt
  | .unbounded, _ => .gt

/-- The `impl Ord for Bounded` (src/dice/bound.rs lines 69–78): compare starts,
then ends. -/
def Bounded.cmp (a b : Bounded) : Ordering :=
  (Bounded.cmpBound a.start b.start).then (Bounded.cmpBound a.stop b.stop)

/-- The `RangeBounds::contains` interval membership for a `Bounded`, per the
standard-library semantics used by `range.contains(&value)`. -/
def Bounded.containsB (r : Bounded) (x : Int) : Bool :=
  (match r.start with
   | .unbounded => true
   | .included v => v ≤ x
   | .excluded v => v < x)
  &&
  (match r.stop with
   | .unbounded => true
   | .included v => x ≤ v
   | .excluded v => x < v)

/-- The `Bounded::range_from(from)` — `Included(from)..Unbounded`. -/
def Bounded.rangeFrom (v : Int) : Bounded := ⟨.included v, .unbounded⟩

/-- The `Bounded::range_to(to)` — `Unbounded..=Included(to)`. -/
def Bounded.rangeTo (v : Int) : Bounded := ⟨.unbounded, .included v⟩

/-- The `Dice` variants of src/dice/mod.rs. -/
inductive Dice where
  | D2 | D3 | D4 | D6 | D8 | D10 | D12 | D20 | D100 | D00 | Fate
  | Other : Int → Int → Dice
deriving DecidableEq, Repr

/-- The `Dice::faces` (src/dice/mod.rs lines 28–43) as the pair
(start, end) of the inclusive face range. -/
def Dice.faces : Dice → Int × Int
  | .D2 => (1, 2)
  | .D3 => (1, 3)
  | .D4 => (1, 4)
  | .D6 => (1, 6)
  | .D8 => (1, 8)
  | .D10 => (1, 10)
  | .D12 => (1, 12)
  | .D20 => (1, 20)
  | .D100 => (1, 100)
  | .D00 => (0, 0)
  | .Fate => (-1, 1)
  | .Other s e => (s, e)

/-- The `Dice::critical` (src/dice/mod.rs lines 45–51). -/
def Dice.critical : Dice → Option Int
  | .D100 => some 5
  | .D00 => some 5
  | .Fate => none
  | _ => some 1

/-- The `Dice::start` (src/dice/mod.rs lines 53–60): the default failure zone,
a width-`critical` inclusive range anchored at the low end of `faces`.
The source returns `RangeInclusive<i8>`; it is consumed only through
`RangeBounds::contains`, so it is embedded as a doubly `Included` `Bounded`. -/
def Dice.start (d : Dice) : Option Bounded :=
  (d.critical).map fun crit => ⟨.included (d.faces).1, .included ((d.faces).1 + crit - 1)⟩

/-- The `Dice::end` (src/dice/mod.rs lines 62–69): the default success zone,
anchored at the high end of `faces`.  Named `endZone` because `end` is a
Lean keyword. -/
def Dice.endZone (d : Dice) : Option Bounded :=
  (d.critical).map fun crit => ⟨.included ((d.faces).2 + 1 - crit), .included (d.faces).2⟩

/-- The `ExType` from src/roll/value.rs. -/
inductive ExType where
  | Standard | Compound | Penetrating
deriving DecidableEq, Repr

/-- The `Action` from src/roll/value.rs. -/
inductive Action where
  | Discard : Action
  | Reroll : Int → Action
  | Explode : Int → ExType → Action
  | Failure : Action
  | Success : Action
deriving DecidableEq, Repr

/-- The `Value { value: i8, actions: Vec<Action> }` from src/roll/value.rs. -/
structure Value where
  value : Int
  actions : List Action
deriving DecidableEq, Repr

/-- The `Value::new`. -/
def Value.new (v : Int) : Value := ⟨v, []⟩

/-- The `Value::add` — append an action, keep the value. -/
def Value.add (v : Value) (a : Action) : Value := ⟨v.value, v.actions ++ [a]⟩

/-- The `Value::update` — replace the value and append an action. -/
def Value.update (v : Value) (x : Int) (a : Action) : Value := ⟨x, v.actions ++ [a]⟩

/-- The `DiscardDirection` from src/roll/behaviour.rs. -/
inductive DiscardDirection where
  | High | Low
deriving DecidableEq, Repr

/-- The `DiscardType` from src/roll/behaviour.rs. -/
inductive DiscardType where
  | Keep : DiscardDirection → DiscardType
  | Drop : DiscardDirection → DiscardType
deriving DecidableEq, Repr

/-- The `Behaviour` from src/roll/behaviour.rs (lines 23–30).  `usize` counts
are embedded as `Nat`. -/
inductive Behaviour where
  | Reroll : Option Bounded → Bool → Behaviour
  | Explode : Option Bounded → ExType → Behaviour
  | Critical : Option Bounded → Option Bounded → Behaviour
  | Keep : Nat → DiscardDirection → Behaviour
  | Drop : Nat → DiscardDirection → Behaviour
deriving DecidableEq, Repr

/-- Comparison of `Bool` as in the derived Rust `Ord`: `false < true`. -/
def cmpBool (a b : Bool) : Ordering :=
  match a, b with
  | false, false => .eq
  | false, true => .lt
  | true, false => .gt
  | true, true => .eq

/-- Derived `Ord` on `Option<T>`: `None < Some(_)`, contents compared
pointwise. -/
def cmpOption (f : α → α → Ordering) : Option α → Option α → Ordering
  | none, none => .eq
  | none, some _ => .lt
  | some _, none => .gt
  | some a, some b => f a b

/-- Declaration rank of an `ExType` variant (derived `Ord`). -/
def ExType.rank : ExType → Nat
  | .Standard => 0
  | .Compound => 1
  | .Penetrating => 2

/-- Derived `Ord` on `ExType`: by declaration order. -/
def ExType.cmp (a b : ExType) : Ordering := cmpNat a.rank b.rank

/-- Declaration rank of a `DiscardDirection` variant (derived `Ord`). -/
def DiscardDirection.rank : DiscardDirection → Nat
  | .High => 0
  | .Low => 1

/-- Derived `Ord` on `DiscardDirection`: by declaration order. -/
def DiscardDirection.cmp (a b : DiscardDirection) : Ordering :=
  cmpNat a.rank b.rank

/-- Declaration rank of a `Behaviour` variant: the derived `Ord` of
src/roll/behaviour.rs line 23 orders `Reroll < Explode < Critical < Keep <
Drop` before comparing fields. -/
def Behaviour.rank : Behaviour → Nat
  | .Reroll _ _ => 0
  | .Explode _ _ => 1
  | .Critical _ _ => 2
  | .Keep _ _ => 3
  | .Drop _ _ => 4

/-- The derived `Ord` on `Behaviour` (attribute `#[derive(Ord)]` on the enum):
variants compare by declaration order, and equal variants compare their
fields lexicographically. -/
def Behaviour.cmp (a b : Behaviour) : Ordering :=
  (cmpNat a.rank b.rank).then
    (match a, b with
     | .Reroll p1 r1, .Reroll p2 r2 =>
         (cmpOption Bounded.cmp p1 p2).then (cmpBool r1 r2)
     | .Explode p1 k1, .Explode p2 k2 =>
         (cmpOption Bounded.cmp p1 p2).then (ExType.cmp k1 k2)
     | .Critical f1 s1, .Critical f2 s2 =>
         (cmpOption Bounded.cmp f1 f2).then (cmpOption Bounded.cmp s1 s2)
     | .Keep n1 d1, .Keep n2 d2 =>
         (cmpNat n1 n2).then (DiscardDirection.cmp d1 d2)
     | .Drop n1 d1, .Drop n2 d2 =>
         (cmpNat n1 n2).then (DiscardDirection.cmp d1 d2)
     | _, _ => .eq)

/-- The ordering relation used to sort behaviours: `a` precedes `b` when the
derived comparator does not say `a > b`.  `Vec::sort_unstable` dispatches to
insertion sort for the slice lengths arising here (Rust uses plain insertion
sort below 21 elements), which coincides with `List.insertionSort` of this
relation. -/
def behaviourLE (a b : Behaviour) : Prop := Behaviour.cmp a b ≠ .gt

instance : DecidableRel behaviourLE := fun a b =>
  inferInstanceAs (Decidable (Behaviour.cmp a b ≠ .gt))

/-- The random source: an infinite stream of naturals (`f`) together with
the index of the next unconsumed element (`i`).  This models the single
`&mut dyn RngCore` threaded by exclusive reference through the program —
each sample consumes exactly one stream element. -/
structure RNG where
  f : Nat → Nat
  i : Nat

/-- Advance the stream by one consumed element. -/
def RNG.next (g : RNG) : Nat × RNG := (g.f g.i, ⟨g.f, g.i + 1⟩)

/-- The `Dice::roll` (src/dice/mod.rs lines 95–97): `rng.gen_range(faces())`.
Per the `rand` contract, one sample is drawn uniformly from the inclusive
range, consuming the stream once; `gen_range` on an empty range
(`start > end`) panics, modelled as `none`. -/
def Dice.roll (d : Dice) (g : RNG) : Option (Int × RNG) :=
  let s := (d.faces).1
  let e := (d.faces).2
  if s ≤ e then
    let (x, g') := g.next
    some (s + (x : Int) % (e - s + 1), g')
  else none

/-- The `Die { dice: Dice, count: u8 }` from src/dice/mod.rs. -/
structure Die where
  dice : Dice
  count : Nat
deriving DecidableEq, Repr

/-- Draw `n` successive samples from `dice.faces()` (the
`rng.sample_iter(range).take(count)` of `Die::roll`); only called with a
non-empty face range. -/
def sampleN (d : Dice) : Nat → RNG → List Int × RNG
  | 0, g => ([], g)
  | n + 1, g =>
      let s := (d.faces).1
      let e := (d.faces).2
      let (x, g') := g.next
      let (rest, g'') := sampleN d n g'
      ((s + (x : Int) % (e - s + 1)) :: rest, g'')

/-- The `Die::roll` (src/dice/mod.rs lines 175–179): constructs
`Uniform::new_inclusive(faces.start(), faces.end())` — which panics when
`start > end` — and then takes `count` samples. -/
def Die.roll (die : Die) (g : RNG) : Option (List Int × RNG) :=
  let s := (die.dice.faces).1
  let e := (die.dice.faces).2
  if s ≤ e then some (sampleN die.dice die.count g) else none

/-- The `Behaviour::failure` (src/roll/behaviour.rs lines 69–71): the explicit
point if given, else the default failure zone of the dice. -/
def Behaviour.failure (dice : Dice) (point : Option Bounded) : Option Bounded :=
  point.orElse fun _ => dice.start

/-- The `Behaviour::success` (src/roll/behaviour.rs lines 73–75). -/
def Behaviour.success (dice : Dice) (point : Option Bounded) : Option Bounded :=
  point.orElse fun _ => dice.endZone

/-- The `while range.contains(&v.value())` loop of `apply_reroll`
(src/roll/behaviour.rs lines 86–95) for one `Value`, with explicit fuel for
the unbounded loop: the source documents that a trigger range covering the
whole face range loops forever.  `none` is a panic (empty-face roll) or an
unbounded loop. -/
def rerollLoop (range : Bounded) (repeat_ : Bool) (dice : Dice) :
    Nat → Value → RNG → Option (Value × RNG)
  | 0, v, g => if range.containsB v.value then none else some (v, g)
  | fuel + 1, v, g =>
      if range.containsB v.value then
        (dice.roll g).bind fun (r, g') =>
          let v' := v.update r (.Reroll v.value)
          if repeat_ then rerollLoop range repeat_ dice fuel v' g'
          else some (v', g')
      else some (v, g)

/-- Thread a per-`Value` transformation through the value vector in order,
consuming the one shared random stream sequentially. -/
def threadValues (f : Value → RNG → Option (Value × RNG)) :
    List Value → RNG → Option (List Value × RNG)
  | [], g => some ([], g)
  | v :: rest, g =>
      (f v g).bind fun (v', g') =>
        (threadValues f rest g').map fun (rest', g'') => (v' :: rest', g'')

/-- The `Behaviour::apply_reroll` (src/roll/behaviour.rs lines 77–100). -/
def applyReroll (point : Option Bounded) (repeat_ : Bool) (dice : Dice)
    (values : List Value) (g : RNG) (fuel : Nat) : Option (List Value × RNG) :=
  match Behaviour.failure dice point with
  | some range => threadValues (rerollLoop range repeat_ dice fuel) values g
  | none => some (values, g)

/-- The `Behaviour::apply_critical` (src/roll/behaviour.rs lines 102–119):
failure is checked before success. -/
def applyCritical (failure success : Option Bounded) (dice : Dice)
    (values : List Value) : List Value :=
  let failure := Behaviour.failure dice failure
  let success := Behaviour.success dice success
  values.map fun value =>
    match failure, success with
    | some v, _ =>
        if v.containsB value.value then value.add .Failure
        else match success with
          | some w => if w.containsB value.value then value.add .Success else value
          | none => value
    | none, some w => if w.containsB value.value then value.add .Success else value
    | none, none => value

/-- The second pass of `apply_discard` (src/roll/behaviour.rs lines
139–149): walk the values, skipping any already marked `Discard`, and for
each whose value occurs in the (sorted) discard multiset, consume one
occurrence and mark the value.  The source uses `binary_search` + `remove`
on the sorted vector, which removes one occurrence of the matched value —
equivalent to `erase` of that value. -/
def discardPass : List Value → List Int → List Value
  | [], _ => []
  | v :: rest, discards =>
      if v.actions.contains .Discard then v :: discardPass rest discards
      else if discards.contains v.value then
        v.add .Discard :: discardPass rest (discards.erase v.value)
      else v :: discardPass rest discards

/-- The `Behaviour::apply_discard` (src/roll/behaviour.rs lines 121–151).
The not-yet-discarded values are collected and sorted (descending for the
High direction), the discard multiset is the first `number` entries for
`Drop` and everything after the first `number` entries for `Keep`.  The
Rust slice expressions `numbers[..number]` / `numbers[number..]` panic when
`number > numbers.len()`; the panic is `none`. -/
def applyDiscard (number : Nat) (discard : DiscardType) (values : List Value) :
    Option (List Value) :=
  let numbers := (values.filter fun v => ¬ v.actions.contains .Discard).map Value.value
  let numbers := numbers.insertionSort (· ≤ ·)
  let numbers :=
    match discard with
    | .Drop .High => numbers.reverse
    | .Keep .High => numbers.reverse
    | _ => numbers
  if number ≤ numbers.length then
    let discards :=
      match discard with
      | .Drop _ => numbers.take number
      | .Keep _ => numbers.drop number
    let discards := discards.insertionSort (· ≤ ·)
    some (discardPass values discards)
  else none

/-- The `while range.contains(&r)` loop of `apply_explode`
(src/roll/behaviour.rs lines 162–184) for one `Value`.  `r` holds the value
the loop condition checks: the raw new roll for Standard and Compound, and
the decremented stored value for Penetrating (the source reassigns `r`
before the condition is re-evaluated). -/
def explodeLoop (range : Bounded) (explode : ExType) (dice : Dice) :
    Nat → Bool → Value → Int → RNG → Option (Value × RNG)
  | 0, _, v, r, g => if range.containsB r then none else some (v, g)
  | fuel + 1, first, v, r, g =>
      if range.containsB r then
        (dice.roll g).bind fun (r1, g') =>
          match explode with
          | .Standard =>
              explodeLoop range explode dice fuel false
                (v.update r1 (.Explode v.value .Standard)) r1 g'
          | .Penetrating =>
              let r2 := max (r1 - 1) (dice.faces).1
              explodeLoop range explode dice fuel false
                (v.update r2 (.Explode v.value .Penetrating)) r2 g'
          | .Compound =>
              let v1 := if first then v.add (.Explode v.value .Compound) else v
              explodeLoop range explode dice fuel false
                (v1.update (v1.value + r1) (.Explode r1 .Compound)) r1 g'
      else some (v, g)

/-- The `Behaviour::apply_explode` (src/roll/behaviour.rs lines 153–191). -/
def applyExplode (point : Option Bounded) (explode : ExType) (dice : Dice)
    (values : List Value) (g : RNG) (fuel : Nat) : Option (List Value × RNG) :=
  match Behaviour.success dice point with
  | some range =>
      threadValues (fun v g0 => explodeLoop range explode dice fuel true v v.value g0)
        values g
  | none => some (values, g)

/-- The `Behaviour::apply` (src/roll/behaviour.rs lines 33–52): dispatch one
rule. -/
def Behaviour.apply (behaviour : Behaviour) (dice : Dice) (values : List Value)
    (g : RNG) (fuel : Nat) : Option (List Value × RNG) :=
  match behaviour with
  | .Keep number direction =>
      (applyDiscard number (.Keep direction) values).map fun vs => (vs, g)
  | .Drop number direction =>
      (applyDiscard number (.Drop direction) values).map fun vs => (vs, g)
  | .Reroll point repeat_ => applyReroll point repeat_ dice values g fuel
  | .Explode point explode => applyExplode point explode dice values g fuel
  | .Critical failure success => some (applyCritical failure success dice values, g)

/-- The `Behaviour::apply_all` (src/roll/behaviour.rs lines 54–67): sort the
behaviours by the derived order, then apply each in turn, threading the
value vector and the random stream. -/
def Behaviour.applyAll (behaviours : List Behaviour) (dice : Dice)
    (values : List Value) (g : RNG) (fuel : Nat) : Option (List Value × RNG) :=
  (behaviours.insertionSort behaviourLE).foldl
    (fun acc b => acc.bind fun (vs, g0) => Behaviour.apply b dice vs g0 fuel)
    (some (values, g))

/-- Accumulate decimal digits, as the Rust integer `FromStr`: fails on an
empty digit string or any non-digit character. -/
def parseNatDigits (l : List Char) : Option Nat :=
  if l = [] then none
  else
    l.foldl
      (fun acc c =>
        acc.bind fun n =>
          if c.isDigit then some (n * 10 + (c.toNat - '0'.toNat)) else none)
      (some 0)

/-- Rust `i8::from_str`: optional sign, decimal digits, range check
`-128..=127`. -/
def parseI8 (l : List Char) : Option Int :=
  match l with
  | '+' :: rest =>
      (parseNatDigits rest).bind fun n => if n ≤ 127 then some (n : Int) else none
  | '-' :: rest =>
      (parseNatDigits rest).bind fun n => if n ≤ 128 then some (-(n : Int)) else none
  | _ => (parseNatDigits l).bind fun n => if n ≤ 127 then some (n : Int) else none

/-- Rust `u8::from_str`: optional `+`, decimal digits, range check
`0..=255`. -/
def parseU8 (l : List Char) : Option Nat :=
  match l with
  | '+' :: rest => (parseNatDigits rest).bind fun n => if n ≤ 255 then some n else none
  | _ => (parseNatDigits l).bind fun n => if n ≤ 255 then some n else none

/-- Rust `usize::from_str` (64-bit): optional `+`, decimal digits, range
check below `2^64`. -/
def parseUsize (l : List Char) : Option Nat :=
  match l with
  | '+' :: rest =>
      (parseNatDigits rest).bind fun n =>
        if n < 18446744073709551616 then some n else none
  | _ =>
      (parseNatDigits l).bind fun n =>
        if n < 18446744073709551616 then some n else none

/-- Rust `str::split(sep)`: every maximal separator-free segment, keeping
empty segments, always at least one segment. -/
def splitChar (sep : Char) : List Char → List (List Char)
  | [] => [[]]
  | c :: rest =>
      if c = sep then [] :: splitChar sep rest
      else
        match splitChar sep rest with
        | h :: t => (c :: h) :: t
        | [] => [[c]]

/-- The `Dice::parse_other` (src/dice/mod.rs lines 99–107): `"start:end"`,
`":end"` or a bare `"end"` (start defaults to 1), via the first two
`split(':')` segments. -/
def Dice.parseOther (l : List Char) : Option Dice :=
  match splitChar ':' l with
  | [e] => (parseI8 e).map (Dice.Other 1)
  | s :: e :: _ =>
      if s = [] then (parseI8 e).map (Dice.Other 1)
      else (parseI8 s).bind fun a => (parseI8 e).map fun b => Dice.Other a b
  | [] => none

/-- The `impl FromStr for Dice` (src/dice/mod.rs lines 110–131): named variants
by literal match, everything else through `parse_other`. -/
def Dice.fromStr (l : List Char) : Option Dice :=
  if l = ['2'] then some .D2
  else if l = ['3'] then some .D3
  else if l = ['4'] then some .D4
  else if l = ['6'] then some .D6
  else if l = ['8'] then some .D8
  else if l = ['1', '0'] then some .D10
  else if l = ['1', '2'] then some .D12
  else if l = ['2', '0'] then some .D20
  else if l = ['1', '0', '0'] then some .D100
  else if l = ['0', '0'] then some .D00
  else if l = ['%'] then some .D00
  else if l = ['F', 'a', 't', 'e'] then some .Fate
  else if l = ['F'] then some .Fate
  else Dice.parseOther l

/-- The `impl FromStr for Die` (src/dice/mod.rs lines 182–192): the segment
before the first `'d'` is the count, parsed with `parse().unwrap_or(1)` —
any unparseable count silently becomes 1; the segment after it is the
dice-spec, whose parse error propagates. -/
def Die.fromStr (l : List Char) : Option Die :=
  let parts := splitChar 'd' l
  let count := (parseU8 (parts.headD ['1'])).getD 1
  (Dice.fromStr ((parts.drop 1).headD [])).map fun dice => ⟨dice, count⟩

/-- Result of `Behaviour::from_str`: distinguishes a returned parse error
(`err`, Rust `Err(_)`) from a panic (`crash`, an out-of-range byte-slice
such as `&s[..1]` on an empty string). -/
inductive PRes (α : Type) where
  | ok : α → PRes α
  | err : PRes α
  | crash : PRes α
deriving DecidableEq, Repr

/-- The `Behaviour::parse_reroll` (src/roll/behaviour.rs lines 193–200): empty
suffix means no explicit point; otherwise the suffix is the inclusive upper
bound of the reroll zone.  Repeat is always `true` from parsing. -/
def parseReroll (s : List Char) : PRes Behaviour :=
  if s = [] then .ok (.Reroll none true)
  else
    match parseI8 s with
    | some v => .ok (.Reroll (some (Bounded.rangeTo v)) true)
    | none => .err

/-- The `Behaviour::parse_explode` (src/roll/behaviour.rs lines 202–228). -/
def parseExplode (s : List Char) : PRes Behaviour :=
  if s = [] then .ok (.Explode none .Standard)
  else
    match s with
    | [] => .err
    | c :: rest =>
        if c = '!' ∨ c = 'c' then
          if rest = [] then .ok (.Explode none .Compound)
          else
            match parseI8 rest with
            | some v => .ok (.Explode (some (Bounded.rangeFrom v)) .Compound)
            | none => .err
        else if c = 'p' then
          if rest = [] then .ok (.Explode none .Penetrating)
          else
            match parseI8 rest with
            | some v => .ok (.Explode (some (Bounded.rangeFrom v)) .Penetrating)
            | none => .err
        else
          match parseI8 s with
          | some v => .ok (.Explode (some (Bounded.rangeFrom v)) .Standard)
          | none => .err

/-- The `Behaviour::parse_critical` (src/roll/behaviour.rs lines 230–250).
The leading `&s[..1]` would panic on an empty suffix, but the caller checks
`s.len() > 1` first and prevents that. -/
def parseCritical (s : List Char) : PRes Behaviour :=
  match s with
  | [] => .crash
  | c :: rest =>
      if c = 's' then
        if rest = [] then .ok (.Critical none none)
        else
          match parseI8 rest with
          | some v => .ok (.Critical none (some (Bounded.rangeFrom v)))
          | none => .err
      else if c = 'f' then
        if rest = [] then .ok (.Critical none none)
        else
          match parseI8 rest with
          | some v => .ok (.Critical (some (Bounded.rangeTo v)) none)
          | none => .err
      else .err

/-- The `Behaviour::parse_keep` (src/roll/behaviour.rs lines 252–259): the
leading `&s[..1]` panics on an empty suffix (input `"k"`). -/
def parseKeep (s : List Char) : PRes Behaviour :=
  match s with
  | [] => .crash
  | c :: rest =>
      if c = 'h' then
        match parseUsize rest with
        | some n => .ok (.Keep n .High)
        | none => .err
      else if c = 'l' then
        match parseUsize rest with
        | some n => .ok (.Keep n .Low)
        | none => .err
      else
        match parseUsize s with
        | some n => .ok (.Keep n .High)
        | none => .err

/-- The `Behaviour::parse_drop` (src/roll/behaviour.rs lines 261–268): like
`parse_keep` but the default direction is `Low`. -/
def parseDrop (s : List Char) : PRes Behaviour :=
  match s with
  | [] => .crash
  | c :: rest =>
      if c = 'h' then
        match parseUsize rest with
        | some n => .ok (.Drop n .High)
        | none => .err
      else if c = 'l' then
        match parseUsize rest with
        | some n => .ok (.Drop n .Low)
        | none => .err
      else
        match parseUsize s with
        | some n => .ok (.Drop n .Low)
        | none => .err

/-- Whether a `Dice` is the `Other` variant. -/
def Dice.isOther : Dice → Bool
  | .Other _ _ => true
  | _ => false

/-- The `impl FromStr for Behaviour` (src/roll/behaviour.rs lines 271–284):
`match &s[..1]` — the byte slice panics on the empty string; otherwise the
leading character dispatches, the `"c"` arm requires `s.len() > 1`, and
anything else is `Err`. -/
def Behaviour.fromStr (s : List Char) : PRes Behaviour :=
  match s with
  | [] => .crash
  | c :: rest =>
      if c = 'r' then parseReroll rest
      else if c = '!' ∨ c = 'x' then parseExplode rest
      else if c = 'c' ∧ rest ≠ [] then parseCritical rest
      else if c = 'k' then parseKeep rest
      else if c = 'd' then parseDrop rest
      else .err

/-- A comparator is lawful when exchanging the arguments swaps the verdict
and the induced `not greater` relation is transitive. -/
def CmpLawful (f : α → α → Ordering) : Prop :=
  (∀ a b, f a b = (f b a).swap) ∧
  (∀ a b c, f a b ≠ .gt → f b c ≠ .gt → f a c ≠ .gt)

/-- The first component of the comparison key of a `Bound`: finite bounds
sort below `Unbounded`. -/
def Bnd.keyTag : Bnd → Nat
  | .unbounded => 1
  | .included _ => 0
  | .excluded _ => 0

/-- The second component of the comparison key of a `Bound`: the inner
value, with inclusivity ignored. -/
def Bnd.keyVal : Bnd → Int
  | .unbounded => 0
  | .included v => v
  | .excluded v => v

/-- Rank of a `Bool` under the derived `Ord`: `false < true`. -/
def boolRank : Bool → Nat
  | false => 0
  | true => 1

/-- First field key of a `Behaviour` for comparison purposes. -/
def Behaviour.proj1 : Behaviour → Option Bounded
  | .Reroll p _ => p
  | .Explode p _ => p
  | .Critical f _ => f
  | .Keep _ _ => none
  | .Drop _ _ => none

/-- Second field key of a `Behaviour` (numeric). -/
def Behaviour.proj2 : Behaviour → Nat
  | .Reroll _ r => boolRank r
  | .Explode _ k => k.rank
  | .Critical _ _ => 0
  | .Keep n _ => n
  | .Drop n _ => n

/-- Third field key of a `Behaviour`. -/
def Behaviour.proj3 : Behaviour → Option Bounded
  | .Critical _ s => s
  | _ => none

/-- Fourth field key of a `Behaviour` (numeric). -/
def Behaviour.proj4 : Behaviour → Nat
  | .Keep _ d => d.rank
  | .Drop _ d => d.rank
  | _ => 0

/-- A keyed rendering of the derived comparator. -/
def Behaviour.keyedCmp (a b : Behaviour) : Ordering :=
  (cmpNat a.rank b.rank).then
    ((cmpOption Bounded.cmp a.proj1 b.proj1).then
      ((cmpNat a.proj2 b.proj2).then
        ((cmpOption Bounded.cmp a.proj3 b.proj3).then
          (cmpNat a.proj4 b.proj4))))

/-- No two distinct members of the list compare `Equal` under the derived
comparator.  Every list produced by the notation parser satisfies this
whenever its members are distinct, since equal-comparing behaviours differ
at most in bound inclusivity, which the parser never varies. -/
def EqCmpInjOn (l : List Behaviour) : Prop :=
  ∀ a ∈ l, ∀ b ∈ l, Behaviour.cmp a b = .eq → a = b

instance (l : List Behaviour) : Decidable (EqCmpInjOn l) := by
  unfold EqCmpInjOn; infer_instance

/-! Lawfulness of the derived comparators: the derived `Ord` used by
`behaviours.sort_unstable()` is a total preorder whose `swap` is the
comparison with the arguments exchanged.  These facts justify applying the
Mathlib insertion-sort lemmas to `behaviourLE`. -/


theorem ord_swap_then (x y : Ordering) : (x.then y).swap = x.swap.then y.swap := by
  cases x <;> rfl

theorem ord_then_eq_right (x : Ordering) : x.then .eq = x := by
  cases x <;> rfl

theorem CmpLawful.swap_eq {f : α → α → Ordering} (h : CmpLawful f) {a b : α}
    (hab : f a b = .eq) : f b a = .eq := by
  have := h.1 b a
  rw [this, hab]; rfl

theorem CmpLawful.gt_of_lt {f : α → α → Ordering} (h : CmpLawful f) {a b : α}
    (hab : f a b = .lt) : f b a = .gt := by
  have := h.1 b a
  rw [this, hab]; rfl

theorem CmpLawful.eq_of_both_le {f : α → α → Ordering} (h : CmpLawful f) {a b : α}
    (hab : f a b ≠ .gt) (hba : f b a ≠ .gt) : f a b = .eq := by
  cases hfa : f a b with
  | eq => rfl
  | gt => exact absurd hfa hab
  | lt => exact absurd (h.gt_of_lt hfa) hba

/-- Pulling a lawful comparator back along any function is lawful. -/
theorem CmpLawful.comap {f : β → β → Ordering} (h : CmpLawful f) (k : α → β) :
    CmpLawful (fun a b => f (k a) (k b)) :=
  ⟨fun a b => h.1 (k a) (k b), fun a b c => h.2 (k a) (k b) (k c)⟩

/-- The lexicographic combination of two lawful comparators is lawful. -/
theorem CmpLawful.lex {f g : α → α → Ordering} (hf : CmpLawful f) (hg : CmpLawful g) :
    CmpLawful (fun a b => (f a b).then (g a b)) := by
  constructor
  · intro a b
    show (f a b).then (g a b) = ((f b a).then (g b a)).swap
    rw [hf.1 a b, hg.1 a b, ord_swap_then]
  · intro a b c h1 h2
    replace h1 : (f a b).then (g a b) ≠ .gt := h1
    replace h2 : (f b c).then (g b c) ≠ .gt := h2
    show (f a c).then (g a c) ≠ .gt
    have hfab : f a b ≠ .gt := by
      intro h; rw [h] at h1; exact h1 rfl
    have hfbc : f b c ≠ .gt := by
      intro h; rw [h] at h2; exact h2 rfl
    have hfac : f a c ≠ .gt := hf.2 a b c hfab hfbc
    cases hac : f a c with
    | lt => intro h; cases h
    | gt => exact absurd hac hfac
    | eq =>
      have hca : f c a = .eq := hf.swap_eq hac
      -- both first components must be `eq`
      have hab : f a b = .eq := by
        cases hab' : f a b with
        | eq => rfl
        | gt => exact absurd hab' hfab
        | lt =>
          have hba : f b a ≠ .gt :=
            hf.2 b c a hfbc (by rw [hca]; intro h; cases h)
          exact absurd (hf.gt_of_lt hab') hba
      have hbc : f b c = .eq := by
        cases hbc' : f b c with
        | eq => rfl
        | gt => exact absurd hbc' hfbc
        | lt =>
          have hcb : f c b ≠ .gt :=
            hf.2 c a b (by rw [hca]; intro h; cases h)
              (by rw [hab]; intro h; cases h)
          exact absurd (hf.gt_of_lt hbc') hcb
      rw [hab] at h1
      rw [hbc] at h2
      simp only [Ordering.then] at h1 h2
      simp only [Ordering.then]
      exact hg.2 a b c h1 h2

theorem cmpInt_lawful : CmpLawful cmpInt := by
  constructor
  · intro a b
    unfold cmpInt
    rcases lt_trichotomy a b with h | h | h
    · rw [if_pos h, if_neg (by omega), if_neg (by omega)]; rfl
    · rw [if_neg (by omega), if_pos h, if_neg (by omega), if_pos h.symm]; rfl
    · rw [if_neg (by omega), if_neg (by omega), if_pos h]; rfl
  · intro a b c h1 h2
    unfold cmpInt at *
    split_ifs at * <;> simp_all <;> omega

theorem cmpNat_lawful : CmpLawful cmpNat := by
  constructor
  · intro a b
    unfold cmpNat
    rcases lt_trichotomy a b with h | h | h
    · rw [if_pos h, if_neg (by omega), if_neg (by omega)]; rfl
    · rw [if_neg (by omega), if_pos h, if_neg (by omega), if_pos h.symm]; rfl
    · rw [if_neg (by omega), if_neg (by omega), if_pos h]; rfl
  · intro a b c h1 h2
    unfold cmpNat at *
    split_ifs at * <;> simp_all <;> omega



theorem cmpBound_eq_key (x y : Bnd) :
    Bounded.cmpBound x y = (cmpNat x.keyTag y.keyTag).then (cmpInt x.keyVal y.keyVal) := by
  cases x <;> cases y <;> rfl

theorem cmpBound_lawful : CmpLawful Bounded.cmpBound := by
  have h := (cmpNat_lawful.comap Bnd.keyTag).lex (cmpInt_lawful.comap Bnd.keyVal)
  constructor
  · intro a b; rw [cmpBound_eq_key, cmpBound_eq_key]; exact h.1 a b
  · intro a b c
    rw [cmpBound_eq_key, cmpBound_eq_key, cmpBound_eq_key]
    exact h.2 a b c

theorem cmpBounded_lawful : CmpLawful Bounded.cmp :=
  (cmpBound_lawful.comap Bounded.start).lex (cmpBound_lawful.comap Bounded.stop)

theorem cmpOption_lawful {f : α → α → Ordering} (hf : CmpLawful f) :
    CmpLawful (cmpOption f) := by
  constructor
  · intro a b
    cases a <;> cases b <;> first | rfl | exact hf.1 _ _
  · intro a b c h1 h2
    cases a <;> cases b <;> cases c <;>
      simp_all [cmpOption] <;> exact hf.2 _ _ _ h1 h2


theorem cmpBool_eq_rank (a b : Bool) : cmpBool a b = cmpNat (boolRank a) (boolRank b) := by
  cases a <;> cases b <;> rfl


theorem ord_then_eq_left (x : Ordering) : Ordering.eq.then x = x := rfl

theorem behaviourCmp_eq_keyed (a b : Behaviour) : Behaviour.cmp a b = Behaviour.keyedCmp a b := by
  cases a <;> cases b <;>
    first
    | rfl
    | simp [Behaviour.cmp, Behaviour.keyedCmp, Behaviour.rank, Behaviour.proj1,
        Behaviour.proj2, Behaviour.proj3, Behaviour.proj4, cmpBool_eq_rank,
        ExType.cmp, DiscardDirection.cmp, ord_then_eq_right, ord_then_eq_left,
        cmpOption, cmpNat]

theorem behaviourCmp_lawful : CmpLawful Behaviour.cmp := by
  have h :=
    (cmpNat_lawful.comap Behaviour.rank).lex
      (((cmpOption_lawful cmpBounded_lawful).comap Behaviour.proj1).lex
        ((cmpNat_lawful.comap Behaviour.proj2).lex
          (((cmpOption_lawful cmpBounded_lawful).comap Behaviour.proj3).lex
            (cmpNat_lawful.comap Behaviour.proj4))))
  constructor
  · intro a b
    rw [behaviourCmp_eq_keyed, behaviourCmp_eq_keyed]; exact h.1 a b
  · intro a b c
    rw [behaviourCmp_eq_keyed, behaviourCmp_eq_keyed, behaviourCmp_eq_keyed]
    exact h.2 a b c

instance : IsTotal Behaviour behaviourLE := by
  constructor
  intro a b
  by_cases h : Behaviour.cmp a b = .gt
  · right
    show Behaviour.cmp b a ≠ .gt
    rw [behaviourCmp_lawful.1 b a, h]
    intro hc; cases hc
  · left; exact h

instance : IsTrans Behaviour behaviourLE :=
  ⟨fun a b c h1 h2 => behaviourCmp_lawful.2 a b c h1 h2⟩


/-- Two sorted lists that are permutations of one another are equal,
provided the comparator separates the elements involved. -/
theorem sorted_perm_eq_of_eqCmpInjOn :
    ∀ {l₁ l₂ : List Behaviour}, l₁.Perm l₂ → l₁.Sorted behaviourLE →
      l₂.Sorted behaviourLE → EqCmpInjOn l₁ → l₁ = l₂ := by
  intro l₁
  induction l₁ with
  | nil =>
    intro l₂ hp _ _ _
    exact hp.nil_eq
  | cons a t₁ ih =>
    intro l₂ hp hs₁ hs₂ hinj
    cases l₂ with
    | nil => exact absurd hp.symm.nil_eq (by simp)
    | cons b t₂ =>
      by_cases hab : a = b
      · subst hab
        have ht : t₁.Perm t₂ := hp.cons_inv
        have : t₁ = t₂ :=
          ih ht (List.sorted_cons.mp hs₁).2 (List.sorted_cons.mp hs₂).2
            (fun x hx y hy => hinj x (List.mem_cons_of_mem a hx) y (List.mem_cons_of_mem a hy))
        rw [this]
      · exfalso
        have ha2 : a ∈ b :: t₂ := hp.subset (List.mem_cons_self a t₁)
        have ha2' : a ∈ t₂ := by
          cases List.mem_cons.mp ha2 with
          | inl h => exact absurd h hab
          | inr h => exact h
        have hba : behaviourLE b a := (List.sorted_cons.mp hs₂).1 a ha2'
        have hb1 : b ∈ a :: t₁ := hp.symm.subset (List.mem_cons_self b t₂)
        have hb1' : b ∈ t₁ := by
          cases List.mem_cons.mp hb1 with
          | inl h => exact absurd h.symm hab
          | inr h => exact h
        have hab' : behaviourLE a b := (List.sorted_cons.mp hs₁).1 b hb1'
        have heq : Behaviour.cmp a b = .eq :=
          behaviourCmp_lawful.eq_of_both_le hab' hba
        exact hab (hinj a (List.mem_cons_self a t₁) b (List.mem_cons_of_mem a hb1') heq)

/-- Sorting is permutation-invariant as long as the comparator separates
the elements of the list. -/
theorem insertionSort_eq_of_perm {l₁ l₂ : List Behaviour} (hp : l₁.Perm l₂)
    (hinj : EqCmpInjOn l₁) :
    l₁.insertionSort behaviourLE = l₂.insertionSort behaviourLE := by
  apply sorted_perm_eq_of_eqCmpInjOn
  · exact (List.perm_insertionSort _ _).trans (hp.trans (List.perm_insertionSort _ _).symm)
  · exact List.sorted_insertionSort _ _
  · exact List.sorted_insertionSort _ _
  · intro x hx y hy
    rw [List.mem_insertionSort] at hx hy
    exact hinj x hx y hy

/-- Exiting the explode loop: when the checked value `r` is outside the
trigger range the loop returns immediately, whatever the fuel. -/
theorem explodeLoop_stop {range : Bounded} {k : ExType} {dice : Dice}
    {fuel : Nat} {first : Bool} {v : Value} {r : Int} {g : RNG}
    (h : range.containsB r = false) :
    explodeLoop range k dice fuel first v r g = some (v, g) := by
  cases fuel <;> simp [explodeLoop, h]

/-- The `sampleN` draws exactly `n` values, each inside the inclusive face
range, whenever the range is non-empty. -/
theorem sampleN_spec (d : Dice) (h : (d.faces).1 ≤ (d.faces).2) :
    ∀ (n : Nat) (g : RNG), ((sampleN d n g).1.length = n) ∧
      ∀ v ∈ (sampleN d n g).1, (d.faces).1 ≤ v ∧ v ≤ (d.faces).2 := by
  intro n
  induction n with
  | zero => intro g; exact ⟨rfl, by intro v hv; cases hv⟩
  | succ m ih =>
    intro g
    have hb : (d.faces).1 ≤ (d.faces).1 + ((g.f g.i : Int)) % ((d.faces).2 - (d.faces).1 + 1) ∧
        (d.faces).1 + ((g.f g.i : Int)) % ((d.faces).2 - (d.faces).1 + 1) ≤ (d.faces).2 := by
      have hpos : (0 : Int) < (d.faces).2 - (d.faces).1 + 1 := by omega
      have h1 : 0 ≤ ((g.f g.i : Int)) % ((d.faces).2 - (d.faces).1 + 1) :=
        Int.emod_nonneg _ (by omega)
      have h2 : ((g.f g.i : Int)) % ((d.faces).2 - (d.faces).1 + 1) <
          (d.faces).2 - (d.faces).1 + 1 := Int.emod_lt_of_pos _ hpos
      omega
    have ihg := ih ⟨g.f, g.i + 1⟩
    constructor
    · simp [sampleN, RNG.next, ihg.1]
    · intro v hv
      simp only [sampleN, RNG.next, List.mem_cons] at hv
      cases hv with
      | inl hv => rw [hv]; exact hb
      | inr hv => exact ihg.2 v hv

/-- Rust `str::split` of `prefix ++ sep ++ rest` begins with `prefix` when
`prefix` is separator-free. -/
theorem splitChar_append (sep : Char) (a b : List Char) (ha : sep ∉ a) :
    splitChar sep (a ++ sep :: b) = a :: splitChar sep b := by
  induction a with
  | nil => simp [splitChar]
  | cons c a' ih =>
    have hc : ¬ c = sep := fun h => ha (by rw [h]; exact List.mem_cons_self sep a')
    have ha' : sep ∉ a' := fun h => ha (List.mem_cons_of_mem c h)
    simp only [List.cons_append, splitChar, if_neg hc, List.append_eq, ih ha']

/-- Rust `str::split` of a separator-free string is that single segment. -/
theorem splitChar_no_sep (sep : Char) (l : List Char) (hl : sep ∉ l) :
    splitChar sep l = [l] := by
  induction l with
  | nil => rfl
  | cons c l' ih =>
    have hc : ¬ c = sep := fun h => hl (by rw [h]; exact List.mem_cons_self sep l')
    have hl' : sep ∉ l' := fun h => hl (List.mem_cons_of_mem c h)
    simp only [splitChar, if_neg hc, ih hl']

/-- The slice guard of `apply_discard`: the collected not-yet-discarded
numbers keep their length through sorting and the direction reversal. -/
theorem applyDiscard_isSome_iff (number : Nat) (discard : DiscardType) (values : List Value) :
    (applyDiscard number discard values).isSome ↔
      number ≤ ((values.filter fun v => ¬ v.actions.contains .Discard).map Value.value).length := by
  unfold applyDiscard
  rcases discard with ⟨dir⟩ | ⟨dir⟩ <;> cases dir <;>
    (simp only [List.length_reverse, List.length_insertionSort]; split <;> simp_all)

/-! The claims. -/

/-- C1 (counterexample): `Behaviour::apply` is not total for `Drop`: with
six undiscarded values, `Drop(7, High)` panics (the slice
`numbers[..number]` is out of range), so `apply` does not return a result,
contradicting the claim that Keep/Drop are total even when `n` exceeds the
number of not-yet-discarded values. -/
theorem c1_counterexample :
    (Behaviour.apply (.Drop 7 .High) .D6
        [⟨1, []⟩, ⟨2, []⟩, ⟨3, []⟩, ⟨4, []⟩, ⟨5, []⟩, ⟨6, []⟩]
        ⟨fun _ => 0, 0⟩ 10).map Prod.fst = none := by decide

/-- C1 (amended): `Behaviour::apply` on `Keep(n, dir)` or `Drop(n, dir)`
returns a result exactly when `n` does not exceed the number of
not-yet-discarded values; when `n` exceeds it the out-of-range slice
panics.  The other behaviours have no failure path apart from the
documented unbounded reroll/explode loop and an empty-face-range roll. -/
theorem c1_amended (n : Nat) (dir : DiscardDirection) (dice : Dice) (vs : List Value)
    (g : RNG) (fuel : Nat) :
    ((Behaviour.apply (.Drop n dir) dice vs g fuel).isSome ↔
      n ≤ (vs.filter fun v => ¬ v.actions.contains .Discard).length) ∧
    ((Behaviour.apply (.Keep n dir) dice vs g fuel).isSome ↔
      n ≤ (vs.filter fun v => ¬ v.actions.contains .Discard).length) := by
  have hD := applyDiscard_isSome_iff n (.Drop dir) vs
  have hK := applyDiscard_isSome_iff n (.Keep dir) vs
  rw [List.length_map] at hD hK
  constructor
  · rw [← hD]
    cases h : applyDiscard n (.Drop dir) vs <;> simp [Behaviour.apply, h]
  · rw [← hK]
    cases h : applyDiscard n (.Keep dir) vs <;> simp [Behaviour.apply, h]

/-- C2 (counterexample): `apply_all` is not permutation-invariant.  The two
rerolls below compare `Equal` under the derived order (inclusivity of the
end bound is ignored by `cmp_bound`) but behave differently, so the two
token orders survive sorting and give different results on the value 3 with
the same random stream. -/
theorem c2_counterexample :
    List.Perm
      [Behaviour.Reroll (some ⟨.unbounded, .excluded 3⟩) false,
       Behaviour.Reroll (some ⟨.unbounded, .included 3⟩) false]
      [Behaviour.Reroll (some ⟨.unbounded, .included 3⟩) false,
       Behaviour.Reroll (some ⟨.unbounded, .excluded 3⟩) false] ∧
    (Behaviour.applyAll
        [Behaviour.Reroll (some ⟨.unbounded, .excluded 3⟩) false,
         Behaviour.Reroll (some ⟨.unbounded, .included 3⟩) false]
        .D6 [⟨3, []⟩] ⟨fun i => if i = 0 then 1 else 4, 0⟩ 10).map Prod.fst ≠
      (Behaviour.applyAll
        [Behaviour.Reroll (some ⟨.unbounded, .included 3⟩) false,
         Behaviour.Reroll (some ⟨.unbounded, .excluded 3⟩) false]
        .D6 [⟨3, []⟩] ⟨fun i => if i = 0 then 1 else 4, 0⟩ 10).map Prod.fst :=
  ⟨List.Perm.swap _ _ _, by decide⟩

/-- C2 (amended): `apply_all` gives the same result on every permutation of
the behaviour list provided no two distinct behaviours of the list compare
`Equal` under the derived order — in particular for every list whose
explicit points use only the bound inclusivities the parser produces. -/
theorem c2_amended (l₁ l₂ : List Behaviour) (dice : Dice) (values : List Value)
    (g : RNG) (fuel : Nat) (hp : l₁.Perm l₂) (hinj : EqCmpInjOn l₁) :
    Behaviour.applyAll l₁ dice values g fuel = Behaviour.applyAll l₂ dice values g fuel := by
  unfold Behaviour.applyAll
  rw [insertionSort_eq_of_perm hp hinj]

/-- C2 (witness): the amended theorem applied to a two-element list and its
transposition. -/
theorem c2_witness :
    Behaviour.applyAll [Behaviour.Keep 2 .High, Behaviour.Reroll none true] .D6 [⟨1, []⟩]
        ⟨fun _ => 3, 0⟩ 5 =
      Behaviour.applyAll [Behaviour.Reroll none true, Behaviour.Keep 2 .High] .D6 [⟨1, []⟩]
        ⟨fun _ => 3, 0⟩ 5 :=
  c2_amended _ _ _ _ _ _ (List.Perm.swap _ _ _) (by decide)

/-- C3: the derived total order on `Behaviour` ranks, in strictly ascending
execution priority, `Reroll(no point) < Reroll(explicit point) < Explode <
Critical < Keep < Drop`, and sorting the six-element list of the claim
always yields exactly that ascending sequence, whatever the parameters. -/
theorem c3_behaviour_order (p : Bounded) (r1 r2 : Bool) (f s q : Option Bounded)
    (k : ExType) (n1 n2 : Nat) (d1 d2 : DiscardDirection) :
    Behaviour.cmp (.Reroll none r1) (.Reroll (some p) r2) = .lt ∧
    Behaviour.cmp (.Reroll (some p) r2) (.Explode q k) = .lt ∧
    Behaviour.cmp (.Explode q k) (.Critical f s) = .lt ∧
    Behaviour.cmp (.Critical f s) (.Keep n1 d1) = .lt ∧
    Behaviour.cmp (.Keep n1 d1) (.Drop n2 d2) = .lt ∧
    List.insertionSort behaviourLE
        [.Reroll (some p) true, .Critical f s, .Drop n2 d2, .Explode q k, .Keep n1 d1,
         .Reroll none false] =
      [.Reroll none false, .Reroll (some p) true, .Explode q k, .Critical f s, .Keep n1 d1,
       .Drop n2 d2] :=
  ⟨rfl, rfl, rfl, rfl, rfl, rfl⟩

/-- C4 (counterexample): parsing the dice-spec `"0"` succeeds and yields
`Other(1, 0)`, whose face range `1..=0` is empty — `faces()` is not a
non-empty range with start ≤ end for every parseable variant. -/
theorem c4_counterexample :
    Dice.fromStr ['0'] = some (Dice.Other 1 0) ∧
      ¬ (((Dice.Other 1 0).faces).1 ≤ ((Dice.Other 1 0).faces).2) := by decide

/-- C4 (amended): for every named `Dice` variant (everything except
`Other`), `faces()` is a non-empty inclusive range with start ≤ end;
parsing does not enforce this for `Other(start, end)`. -/
theorem c4_amended (d : Dice) (h : d.isOther = false) :
    (d.faces).1 ≤ (d.faces).2 := by
  cases d <;> first | decide | simp [Dice.isOther] at h

/-- C4 (witness): the amended theorem at `D6`. -/
theorem c4_witness : Dice.D6.isOther = false ∧ ((Dice.D6.faces).1 ≤ (Dice.D6.faces).2) :=
  ⟨by decide, c4_amended .D6 (by decide)⟩

/-- C5 (counterexample): the die parsed from `"d0"` is `Other(1, 0)` with
one roll requested, and `Die::roll` on it panics (`Uniform::new_inclusive`
with low > high) instead of returning a one-element vector. -/
theorem c5_counterexample :
    Die.fromStr ['d', '0'] = some ⟨.Other 1 0, 1⟩ ∧
      (Die.roll ⟨.Other 1 0, 1⟩ ⟨fun _ => 0, 0⟩).map Prod.fst = none := by decide

/-- C5 (amended): for every `Die` whose face range is non-empty and every
random stream, `Die::roll` returns exactly `count` values, each within
`dice.faces()`; when the face range is empty (reachable through parsing,
e.g. `"d0"`) the roll panics. -/
theorem c5_amended (die : Die) (g : RNG)
    (h : ((die.dice).faces).1 ≤ ((die.dice).faces).2) :
    ∃ l g', Die.roll die g = some (l, g') ∧ l.length = die.count ∧
      ∀ v ∈ l, ((die.dice).faces).1 ≤ v ∧ v ≤ ((die.dice).faces).2 := by
  refine ⟨(sampleN die.dice die.count g).1, (sampleN die.dice die.count g).2, ?_,
    (sampleN_spec die.dice h die.count g).1, (sampleN_spec die.dice h die.count g).2⟩
  unfold Die.roll
  rw [if_pos h]

/-- C5 (witness): the amended theorem at three rolls of a D6. -/
theorem c5_witness :
    ∃ l g', Die.roll ⟨.D6, 3⟩ ⟨fun _ => 0, 0⟩ = some (l, g') ∧
      l.length = (⟨.D6, 3⟩ : Die).count ∧
      ∀ v ∈ l, ((Dice.D6).faces).1 ≤ v ∧ v ≤ ((Dice.D6).faces).2 :=
  c5_amended ⟨.D6, 3⟩ ⟨fun _ => 0, 0⟩ (by decide)

/-- C6 (counterexample): the count segment `"x"` of `"xd6"` is non-empty
and unparseable, yet `Die::from_str` succeeds with count 1 — the malformed
numeric literal is silently accepted, contradicting the claim that it must
fail with a parse error. -/
theorem c6_counterexample :
    parseU8 ['x'] = none ∧ Die.fromStr ['x', 'd', '6'] = some ⟨.D6, 1⟩ := by decide

/-- C6 (amended): parsing `"[count]d<dice-spec>"` never fails because of the
count segment: the count is `parse().unwrap_or(1)`, so a missing or
unparseable count silently defaults to 1, and the parse fails exactly when
the dice-spec segment fails. -/
theorem c6_amended (a b : List Char) (ha : 'd' ∉ a) (hb : 'd' ∉ b) :
    Die.fromStr (a ++ 'd' :: b) =
      (Dice.fromStr b).map fun dice => ⟨dice, (parseU8 a).getD 1⟩ := by
  unfold Die.fromStr
  rw [splitChar_append 'd' a b ha, splitChar_no_sep 'd' b hb]
  rfl

/-- C6 (witness): the amended theorem at `"xd6"`. -/
theorem c6_witness :
    Die.fromStr (['x'] ++ 'd' :: ['6']) =
      (Dice.fromStr ['6']).map fun dice => ⟨dice, (parseU8 ['x']).getD 1⟩ :=
  c6_amended ['x'] ['6'] (by decide) (by decide)

/-- C7 (counterexample): on a D6 with the default trigger `6..=6`, a
Penetrating explosion of the face 6 under a stream that rolls a raw 6
stops after a single explosion (the stored value becomes
`max(6 − 1, 1) = 5`), even though the raw new roll 6 lies in the trigger
range — refuting the claim that the Penetrating loop continues exactly
when the raw new roll lies in the trigger range. -/
theorem c7_counterexample :
    (applyExplode none .Penetrating .D6 [⟨6, []⟩] ⟨fun _ => 5, 0⟩ 10).map Prod.fst =
        some [⟨5, [.Explode 6 .Penetrating]⟩] ∧
      Behaviour.success .D6 none = some ⟨.included 6, .included 6⟩ ∧
      Bounded.containsB ⟨.included 6, .included 6⟩ 6 = true ∧
      (Dice.roll .D6 ⟨fun _ => 5, 0⟩).map Prod.fst = some 6 := by decide

/-- C7 (amended): the continuation condition of the explode loop checks the
newly rolled face for Standard and for Compound (the raw roll, not the
accumulated total), but for Penetrating it checks the decremented stored
value `max(newRoll − 1, faces().start())`: whenever that decremented value
is outside the trigger range the loop performs exactly one explosion and
stops, regardless of whether the raw roll is inside the range. -/
theorem c7_amended (dice : Dice) (range : Bounded) (v : Value) (g g1 : RNG) (r1 : Int)
    (fuel : Nat) (first : Bool)
    (htrig : range.containsB v.value = true)
    (hroll : dice.roll g = some (r1, g1)) :
    (range.containsB r1 = false →
      explodeLoop range .Standard dice (fuel + 1) first v v.value g =
        some (v.update r1 (.Explode v.value .Standard), g1)) ∧
    (range.containsB r1 = false →
      explodeLoop range .Compound dice (fuel + 1) true v v.value g =
        some ((v.add (.Explode v.value .Compound)).update (v.value + r1)
          (.Explode r1 .Compound), g1)) ∧
    (range.containsB (max (r1 - 1) ((dice.faces).1)) = false →
      explodeLoop range .Penetrating dice (fuel + 1) first v v.value g =
        some (v.update (max (r1 - 1) ((dice.faces).1))
          (.Explode v.value .Penetrating), g1)) := by
  refine ⟨?_, ?_, ?_⟩ <;> intro hstop <;>
    simp [explodeLoop, htrig, hroll, explodeLoop_stop hstop, Value.add, Value.update]

/-- C7 (witness): the amended theorem on a D6 with trigger `6..=6`, face 6
and a stream rolling a raw 1. -/
theorem c7_witness :
    (explodeLoop ⟨.included 6, .included 6⟩ .Standard .D6 6 true ⟨6, []⟩ 6 ⟨fun _ => 0, 0⟩ =
      some (⟨1, [.Explode 6 .Standard]⟩, ⟨fun _ => 0, 1⟩)) ∧
    (explodeLoop ⟨.included 6, .included 6⟩ .Compound .D6 6 true ⟨6, []⟩ 6 ⟨fun _ => 0, 0⟩ =
      some (⟨7, [.Explode 6 .Compound, .Explode 1 .Compound]⟩, ⟨fun _ => 0, 1⟩)) ∧
    (explodeLoop ⟨.included 6, .included 6⟩ .Penetrating .D6 6 true ⟨6, []⟩ 6 ⟨fun _ => 0, 0⟩ =
      some (⟨1, [.Explode 6 .Penetrating]⟩, ⟨fun _ => 0, 1⟩)) := by
  have h := c7_amended .D6 ⟨.included 6, .included 6⟩ ⟨6, []⟩ ⟨fun _ => 0, 0⟩
    ⟨fun _ => 0, 1⟩ 1 5 true (by decide) (by rfl)
  exact ⟨h.1 (by decide), h.2.1 (by decide), h.2.2 (by decide)⟩

/-- C8: a Compound explosion with no explicit point on a D6 value of 6,
with a stream rolling 6 then 1, accumulates to 13 and logs exactly the
initial Compound marker `Explode(6)` followed by the two compound
increments `Explode(6)` and `Explode(1)`, in that order. -/
theorem c8_compound_d6 :
    (Behaviour.apply (.Explode none .Compound) .D6 [⟨6, []⟩]
        ⟨fun i => if i = 0 then 5 else 0, 0⟩ 10).map Prod.fst =
      some [⟨13, [.Explode 6 .Compound, .Explode 6 .Compound, .Explode 1 .Compound]⟩] := by
  decide

/-- C9: `Drop(2, High)` applied twice to `[1,2,3,4,5,6]` discards exactly
`{3,4,5,6}` — first `{5,6}`, then the next two highest remaining `{3,4}` —
leaving `{1,2}` untouched; the values already marked `Discard` are left
with a single `Discard` action, never re-selected. -/
theorem c9_sequential_drop :
    (applyDiscard 2 (.Drop .High)
        [⟨1, []⟩, ⟨2, []⟩, ⟨3, []⟩, ⟨4, []⟩, ⟨5, []⟩, ⟨6, []⟩]).bind
      (applyDiscard 2 (.Drop .High)) =
      some [⟨1, []⟩, ⟨2, []⟩, ⟨3, [.Discard]⟩, ⟨4, [.Discard]⟩,
        ⟨5, [.Discard]⟩, ⟨6, [.Discard]⟩] := by decide

/-- C10 (counterexample): `Behaviour::from_str` returns a parse error on
`"rq"`, whose leading character `'r'` is a recognized dispatch character
(parsing `"r"` alone succeeds) — refuting the part of the claim that the
error return is only reached for inputs with an unrecognized leading
character. -/
theorem c10_counterexample :
    Behaviour.fromStr ['r'] = .ok (.Reroll none true) ∧
      Behaviour.fromStr ['r', 'q'] = .err := by decide

/-- C10 (amended): `Behaviour::from_str` on the empty string panics
(byte-slice out of range on `&s[..1]`) instead of returning a parse error,
so the parse function is not total; its error return is reached only for
non-empty inputs (an unrecognized or incomplete leading token, or a
recognized prefix with a malformed numeric suffix). -/
theorem c10_amended :
    Behaviour.fromStr [] = .crash ∧
      ∀ s : List Char, Behaviour.fromStr s = .err → s ≠ [] := by
  refine ⟨rfl, ?_⟩
  intro s h hs
  subst hs
  exact absurd h (by decide)

/-- C10 (witness): the amended theorem applied to the erroring input
`"c"`. -/
theorem c10_witness :
    Behaviour.fromStr [] = PRes.crash ∧ (['c'] : List Char) ≠ [] :=
  ⟨c10_amended.1, c10_amended.2 ['c'] (by decide)⟩

end Roll
